import Mathlib

/-!
Verification development for `jmc_flame_graph.py`, a viewer that parses a
JMC (Java Mission Control) indentation-coded call-tree report and renders it
as a flame graph.

The program is shallowly embedded here:

* Raw text lines are `List Char` (one Python `str` line, including any
  trailing newline supplied by file iteration).
* Python exceptions are modelled as `Except` error values; each error
  constructor's doc comment names the Python exception and raise site that
  it stands for.
* Python `float` arithmetic in the renderer is modelled exactly over `ℚ`.
* The mutable object graph built by the parser (nodes are created, attached
  to a parent that may already sit inside the forest, and then mutated by
  later `add_child` calls) is modelled as an arena: `List PNode` indexed by
  allocation order, with child links stored as arena indices.  Index `i` is
  the node created from input line `i`.
-/

/-- Python's whitespace test used by `str.lstrip()` / `int(str)`:
the six ASCII whitespace characters. -/
def pyIsSpace (c : Char) : Bool :=
  c = ' ' || c = '\t' || c = '\n' || c = '\r' || c = '\x0b' || c = '\x0c'

/-- Python `line.split('\t')`: split on every tab, keeping empty chunks;
the result is always nonempty (`split` of `""` is `[""]`). -/
def splitTabs : List Char → List (List Char)
  | [] => [[]]
  | c :: rest =>
    match splitTabs rest with
    | [] => [[c]]
    | h :: t => if c = '\t' then [] :: h :: t else (c :: h) :: t

/-- Python `s.lstrip()` (no argument): drop leading whitespace characters. -/
def lstrip (s : List Char) : List Char := s.dropWhile pyIsSpace

/-- Python `s.replace(',', '')`: remove every comma. -/
def removeCommas (s : List Char) : List Char := s.filter (fun c => c != ',')

/-- Python `s.strip()` as performed internally by `int(str)`:
drop leading and trailing whitespace. -/
def stripEnds (s : List Char) : List Char :=
  ((s.dropWhile pyIsSpace).reverse.dropWhile pyIsSpace).reverse

/-- Numeric value of a (checked) decimal digit string. -/
def digitsVal (ds : List Char) : Nat :=
  ds.foldl (fun acc c => acc * 10 + (c.toNat - '0'.toNat)) 0

/-- Python 2 `int(str)`: strip surrounding whitespace, allow one optional
sign, then require a nonempty run of decimal digits; `none` models the
`ValueError` raised otherwise. -/
def pyInt (s : List Char) : Option Int :=
  let t := stripEnds s
  match t with
  | '+' :: ds => if ds ≠ [] ∧ ds.all Char.isDigit then some (digitsVal ds) else none
  | '-' :: ds => if ds ≠ [] ∧ ds.all Char.isDigit then some (-(digitsVal ds : Int)) else none
  | ds => if ds ≠ [] ∧ ds.all Char.isDigit then some (digitsVal ds) else none

/-- The failure modes of `JmcCallForestParser.parse`.  The source raises
plain Python exceptions; each constructor records one raise site. -/
inductive ParseError where
  /-- `IndexError` from `self.chunks[1]` in `JmcCallTreeLine.samples`:
  the line has fewer than two tab-separated fields (the spec's
  `MalformedLine`). -/
  | malformedLine
  /-- `ValueError` from `int(...)` in `JmcCallTreeLine.samples`: field 1 is
  not numeric after comma removal (the spec's `MalformedSampleCount`). -/
  | malformedSampleCount
  /-- `IndexError` from `self.stack[-1]` in `CallTreeNodeStack.top` when the
  stack is empty; the code has no named `StackUnderflow` error, only this
  unguarded indexing (see the `TODO` comment in `drop_to`). -/
  | topOfEmptyStack
deriving DecidableEq, Repr

namespace JmcCallTreeLine

/-- `INDENT_SPACES = 3`. -/
def INDENT_SPACES : Nat := 3

/-- `self.chunks = line.split('\t')`. -/
def chunks (line : List Char) : List (List Char) := splitTabs line

/-- `signature(self): return self.chunks[0].lstrip()`.  `chunks` is never
empty, so the `[0]` access cannot fail (`headD` with an unreachable
default). -/
def signature (line : List Char) : List Char := lstrip ((chunks line).headD [])

/-- `indentation(self): return len(self.chunks[0]) - len(self.signature())`. -/
def indentation (line : List Char) : Nat :=
  ((chunks line).headD []).length - (signature line).length

/-- `depth_below_root(self): return self.indentation() / self.INDENT_SPACES`
(Python 2 integer division on nonnegative ints, i.e. `Nat.div`). -/
def depth_below_root (line : List Char) : Nat :=
  indentation line / INDENT_SPACES

/-- `samples(self): return int(self.chunks[1].replace(',', ''))`.
`chunks[1]` raises `IndexError` when the line has fewer than two fields, and
`int(...)` raises `ValueError` when the comma-stripped field is not
numeric. -/
def samples (line : List Char) : Except ParseError Int :=
  match (chunks line)[1]? with
  | none => .error .malformedLine
  | some f =>
    match pyInt (removeCommas f) with
    | none => .error .malformedSampleCount
    | some v => .ok v

end JmcCallTreeLine

/-- One `CallTreeNode` object as the parser sees it: `children` holds arena
indices of the child objects, in `add_child` (append) order. -/
structure PNode where
  signature : List Char
  samples : Int
  children : List Nat
deriving DecidableEq, Repr

/-- State of `JmcCallForestParser` mid-parse: the arena of every
`CallTreeNode` allocated so far (index = allocation order = source line
number), the forest's root indices, and the ancestor stack (bottom first,
Python `append` pushes at the end). -/
structure BState where
  arena : List PNode
  roots : List Nat
  stack : List Nat
deriving DecidableEq, Repr

/-- The parser starts with an empty forest and an empty stack. -/
def initState : BState := ⟨[], [], []⟩

namespace CallTreeNodeStack

/-- `drop_to(self, depth): self.stack = self.stack[:depth]` — Python slicing
truncates silently when `depth` exceeds the length. -/
def drop_to (stack : List Nat) (depth : Nat) : List Nat := stack.take depth

/-- `top(self): return self.stack[-1]`; `none` models the `IndexError`
raised on an empty stack. -/
def top (stack : List Nat) : Option Nat := stack.getLast?

end CallTreeNodeStack

/-- `add_child` performed on the arena: append index `n` to the children of
the node at index `p` (a no-op for an out-of-range `p`, which never occurs
on the guarded path). -/
def addChildAt (a : List PNode) (p : Nat) (n : Nat) : List PNode :=
  match a[p]? with
  | some nd => a.set p ⟨nd.signature, nd.samples, nd.children ++ [n]⟩
  | none => a

namespace JmcCallForestParser

/-- The body of `process_line` after the line has been decoded into
`(signature, samples, depth)`: allocate the new node, `drop_to(d)`, attach
it as a forest root (`d = 0`) or as a child of the truncated stack's top,
then push it. -/
def processTriple (st : BState) (sig : List Char) (samp : Int) (d : Nat) :
    Except ParseError BState :=
  let n := st.arena.length
  let stack2 := CallTreeNodeStack.drop_to st.stack d
  if d = 0 then
    .ok ⟨st.arena ++ [⟨sig, samp, []⟩], st.roots ++ [n], stack2 ++ [n]⟩
  else
    match CallTreeNodeStack.top stack2 with
    | none => .error .topOfEmptyStack
    | some p =>
      .ok ⟨addChildAt (st.arena ++ [⟨sig, samp, []⟩]) p n, st.roots, stack2 ++ [n]⟩

/-- `process_line(self, line)`: decode the line (depth first, then the node's
signature and samples — any decode error aborts before the stack is
touched), then run the stack step. -/
def process_line (st : BState) (line : List Char) : Except ParseError BState :=
  let d := JmcCallTreeLine.depth_below_root line
  match JmcCallTreeLine.samples line with
  | .error e => .error e
  | .ok samp => processTriple st (JmcCallTreeLine.signature line) samp d

/-- Run the stack step over a list of already-decoded triples. -/
def processTriples : BState → List (List Char × Int × Nat) → Except ParseError BState
  | st, [] => .ok st
  | st, (sig, samp, d) :: rest =>
    match processTriple st sig samp d with
    | .error e => .error e
    | .ok st' => processTriples st' rest

/-- `parse(self)`: process every line in order; the first exception aborts
the whole parse and no forest is returned. -/
def parseLines : BState → List (List Char) → Except ParseError BState
  | st, [] => .ok st
  | st, l :: rest =>
    match process_line st l with
    | .error e => .error e
    | .ok st' => parseLines st' rest

end JmcCallForestParser

/-- Scan the arena for the (unique, by construction) node whose `children`
list contains `n`; `i` is the index of the first node of `a` in the full
arena. -/
def scanParent (n : Nat) : List PNode → Nat → Option Nat
  | [], _ => none
  | nd :: rest, i => if n ∈ nd.children then some i else scanParent n rest (i + 1)

/-- The arena index of the parent of node `n` (`none` for roots). -/
def parentOf (a : List PNode) (n : Nat) : Option Nat := scanParent n a 0

/-- Length of the ancestor chain of node `n`, computed by following parent
links with explicit fuel (parents have smaller indices, so fuel `n`
suffices). -/
def chainLenAux (a : List PNode) : Nat → Nat → Nat
  | 0, _ => 0
  | fuel + 1, n =>
    match parentOf a n with
    | none => 0
    | some p => chainLenAux a fuel p + 1

/-- Number of ancestors of node `n` in the reconstructed forest. -/
def chainLen (a : List PNode) (n : Nat) : Nat := chainLenAux a n n

/-- The indices of the depth-0 entries of `ds`, in input order. -/
def rootIndices (ds : List Nat) : List Nat :=
  (List.range ds.length).filter (fun i => ds.getD i 1 = 0)

/-- Well-formedness of a depth sequence, relative to a current ancestor-stack
height `k`: the next depth may be at most `k`, and after a line of depth `d`
the stack height is `d + 1`.  `wfFromB 0 ds` is the claim's well-formedness
(first line at depth 0, later depths never jump past previous + 1). -/
def wfFromB : Nat → List Nat → Bool
  | _, [] => true
  | k, d :: rest => decide (d ≤ k) && wfFromB (d + 1) rest

/- ===================== Renderer-side model ===================== -/

/-- `CallTreeNode` as the immutable tree the renderer consumes. -/
inductive CallTreeNode where
  | mk (signature : String) (samples : Int) (children : List CallTreeNode)

/-- `signature` field accessor. -/
def CallTreeNode.signature : CallTreeNode → String
  | .mk s _ _ => s

/-- `samples` field accessor. -/
def CallTreeNode.samples : CallTreeNode → Int
  | .mk _ m _ => m

/-- `children` field accessor. -/
def CallTreeNode.children : CallTreeNode → List CallTreeNode
  | .mk _ _ cs => cs

mutual

/-- `CallTreeNode.depth(self): return 1 + max([c.depth() for c in
self.children] or [0])` (every subtree depth is `≥ 1`, so folding the
children's depths against `0` agrees with Python's `max` of the nonempty
list `[...]`, and gives `max([0]) = 0` for a leaf). -/
def CallTreeNode.depth : CallTreeNode → Nat
  | .mk _ _ cs => 1 + depthList cs

/-- `max([c.depth() for c in l] or [0])`: the largest subtree depth in `l`,
`0` for an empty list. -/
def depthList : List CallTreeNode → Nat
  | [] => 0
  | t :: rest => max t.depth (depthList rest)

end

/-- `CallForest`: a named ordered list of root nodes. -/
structure CallForest where
  name : String
  roots : List CallTreeNode

/-- `CallForest.samples(self): return sum([r.samples for r in self.roots])`. -/
def CallForest.samples (f : CallForest) : Int :=
  (f.roots.map CallTreeNode.samples).sum

/-- `CallForest.depth(self): return max([r.depth() for r in self.roots] or
[0])`. -/
def CallForest.depth (f : CallForest) : Nat := depthList f.roots

/-- Lexicographic `≤` on character lists: Python 2's byte-wise string
comparison, used by `sorted(..., key=lambda n: n.signature)`. -/
def lexLE : List Char → List Char → Bool
  | [], _ => true
  | _ :: _, [] => false
  | a :: as, b :: bs => if a = b then lexLE as bs else decide (a < b)

/-- Signature comparison for sorting: lexicographic on the characters. -/
def sigLE (a b : CallTreeNode) : Bool := lexLE a.signature.data b.signature.data

/-- Insert a node into an already-sorted list, after every element whose
signature is `≤` the new one (this is the stable insertion matching Python's
stable `sorted(..., key=lambda n: n.signature)`). -/
def insertBySig (c : CallTreeNode) : List CallTreeNode → List CallTreeNode
  | [] => [c]
  | d :: rest =>
    if sigLE d c then d :: insertBySig c rest else c :: d :: rest

/-- `sorted(nodes, key=lambda n: n.signature)`: stable sort by signature,
modelled as left-to-right stable insertion sort (same result: ascending by
signature, equal keys in input order). -/
def sortBySig (l : List CallTreeNode) : List CallTreeNode :=
  l.foldl (fun acc c => insertBySig c acc) []

/-- The failure modes of laying a forest out. -/
inductive LayoutError where
  /-- Python `ZeroDivisionError` from `float(width) / call_forest.samples()`
  (or the subsequent `depth()` division) in `TkFlameGraphRenderer.__init__`;
  the code performs the division unguarded. -/
  | zeroDivisionError
  /-- The spec's named `EmptyForest` error.  Declared here only so that the
  spec's description can be compared with the code; the code never produces
  it. -/
  | emptyForest
deriving DecidableEq, Repr

/-- The layout-relevant state of `TkFlameGraphRenderer` (the Tk window,
canvas and font metrics are external collaborators and carry no layout
content). -/
structure Renderer where
  call_forest : CallForest
  width : ℚ
  height : ℚ
  x_scale : ℚ
  y_scale : ℚ

/-- `TkFlameGraphRenderer.__init__`: `x_scale = float(width) /
call_forest.samples()` then `y_scale = float(height) / call_forest.depth()`,
each raising `ZeroDivisionError` on a zero divisor (checked in source
order). -/
def mkRenderer (f : CallForest) (w h : ℚ) : Except LayoutError Renderer :=
  if ((f.samples : ℚ)) = 0 then .error .zeroDivisionError
  else if ((f.depth : ℚ)) = 0 then .error .zeroDivisionError
  else .ok ⟨f, w, h, w / (f.samples : ℚ), h / (f.depth : ℚ)⟩

/-- The x-advancing loop shared by `render` and `render_call_tree`: place
each node of `l` (already sorted) at the running x, then advance x by
`x_scale * node.samples`. -/
def placeRow (xs : ℚ) : List CallTreeNode → ℚ → List (CallTreeNode × ℚ)
  | [], _ => []
  | c :: rest, x => (c, x) :: placeRow xs rest (x + xs * (c.samples : ℚ))

/-- `render(self)`: roots sorted by signature, placed left to right starting
from the literal `x = 2.0` in the source (the line flagged with the
`# ****` comment). -/
def rootPlacements (r : Renderer) : List (CallTreeNode × ℚ) :=
  placeRow r.x_scale (sortBySig r.call_forest.roots) 2

/-- `render`'s root row: `y = self.height - self.y_scale` (one scaled row
height above the bottom edge; the canvas y axis grows downward). -/
def rootRowY (r : Renderer) : ℚ := r.height - r.y_scale

/-- `render_call_tree` at one level: the children of a node placed at
`(x, y)`, sorted by signature, placed from `child_x = x` advancing by
`x_scale * child.samples`, all at `child_y = y - y_scale` (one row toward
increasing depth, since depth grows upward from the bottom root row). -/
def childPlacements (xs ys : ℚ) (t : CallTreeNode) (x y : ℚ) :
    List (CallTreeNode × ℚ × ℚ) :=
  (placeRow xs (sortBySig t.children) x).map (fun p => (p.1, p.2, y - ys))

/-- `bounding_box(self, node, x, y)`: `(left, top, right, bottom)` with
`right = left + x_scale * node.samples` and `bottom = top + y_scale`. -/
def bounding_box (xs ys : ℚ) (node : CallTreeNode) (x y : ℚ) : ℚ × ℚ × ℚ × ℚ :=
  (x, y, x + xs * (node.samples : ℚ), y + ys)

/-- `zoom_in`'s forest construction: `CallForest(new_root.signature)` followed
by `add_root(new_root)` — the selected node itself becomes the sole root. -/
def zoomForest (new_root : CallTreeNode) : CallForest :=
  ⟨new_root.signature, [new_root]⟩

/-- `zoom_in(self, event, new_root)`: build the single-root forest and a new
renderer over it with this renderer's width and height. -/
def zoom_in (r : Renderer) (new_root : CallTreeNode) : Except LayoutError Renderer :=
  mkRenderer (zoomForest new_root) r.width r.height

/- ============ Definitions following the spec's words ============ -/

/-- Spec wording of C6: `signature` = field 0 with leading *space characters*
stripped (the code's `lstrip()` strips all leading whitespace). -/
def claimSignature (line : List Char) : List Char :=
  ((JmcCallTreeLine.chunks line).headD []).dropWhile (fun c => c = ' ')

/-- Spec wording of C6: `indentation` = count of leading *space characters*
of field 0. -/
def claimIndentation (line : List Char) : Nat :=
  (((JmcCallTreeLine.chunks line).headD []).takeWhile (fun c => c = ' ')).length

/-- Spec wording of C6: depth = leading-space count integer-divided by 3. -/
def claimDepth (line : List Char) : Nat := claimIndentation line / 3

/-- Spec wording of C3: forest depth = 1 + the maximum depth over the roots'
subtrees, `0` when there are no roots. -/
def claimForestDepth (f : CallForest) : Nat :=
  if f.roots.isEmpty then 0 else 1 + depthList f.roots

/- ===================== Concrete instances ===================== -/

/-- The spec's worked example: root `oracle.db.Connect` with children `open`
(400) and `close` (600). -/
def exampleRoot : CallTreeNode :=
  .mk "oracle.db.Connect" 1000
    [.mk "oracle.db.Connect.open" 400 [], .mk "oracle.db.Connect.close" 600 []]

/-- The example forest, laid out at `W = 1000`, `H = 200` in the spec. -/
def exampleForest : CallForest := ⟨"example", [exampleRoot]⟩

/-- The renderer state `TkFlameGraphRenderer.__init__` computes for
`exampleForest` at 1000×200: `x_scale = 1`, `y_scale = 100`. -/
def exampleRenderer : Renderer := ⟨exampleForest, 1000, 200, 1, 100⟩

/-- A node with zero samples (as produced from a `...\t0` report line). -/
def zeroNode : CallTreeNode := .mk "zero.samples.Frame" 0 []

/-- A forest containing `zeroNode` as a rendered descendant. -/
def baseForest : CallForest := ⟨"base", [.mk "root.Frame" 5 [zeroNode]]⟩

/-- The renderer for `baseForest` at 1200×800: `x_scale = 240`,
`y_scale = 400`. -/
def baseRenderer : Renderer := ⟨baseForest, 1200, 800, 240, 400⟩

/-- The child-index list of the node at arena index `q` (`[]` beyond the
arena, where no node exists). -/
def childrenAt (a : List PNode) (q : Nat) : List Nat :=
  (a.getD q ⟨[], 0, []⟩).children

/-- Structural sanity of the arena the parser builds: every child link goes
to a strictly larger index inside the arena (children are allocated after
their parent), and no node is the child of two parents. -/
def GoodArena (a : List PNode) : Prop :=
  (∀ q, ∀ c ∈ childrenAt a q, q < c ∧ c < a.length) ∧
  (∀ c q1 q2, c ∈ childrenAt a q1 → c ∈ childrenAt a q2 → q1 = q2)

/-- The invariant relating a parser state to the depth sequence `ds` of the
lines processed so far: one arena node per line, a well-formed child graph,
every node's ancestor-chain length equal to its line's decoded depth, the
forest's roots exactly the depth-0 lines in input order, and the ancestor
stack holding, at position `j`, a node of chain length `j`. -/
structure ParserInv (st : BState) (ds : List Nat) : Prop where
  len : st.arena.length = ds.length
  good : GoodArena st.arena
  chain : ∀ i, i < ds.length → chainLen st.arena i = ds.getD i 0
  rootsEq : st.roots = rootIndices ds
  stackElems : ∀ j, j < st.stack.length →
    st.stack.getD j 0 < st.arena.length ∧ chainLen st.arena (st.stack.getD j 0) = j

/-- The spec's example input, decoded: a 1000-sample root with two children
of 400 and 600 samples at depth 1. -/
def exampleTriples : List (List Char × Int × Nat) :=
  [("oracle.db.Connect".data, 1000, 0),
   ("oracle.db.Connect.open".data, 400, 1),
   ("oracle.db.Connect.close".data, 600, 1)]

/- ===================== Helper lemmas ===================== -/

theorem lexLE_total (a b : List Char) : lexLE a b = true ∨ lexLE b a = true := by
  induction a generalizing b with
  | nil => exact .inl rfl
  | cons x xs ih =>
    cases b with
    | nil => exact .inr rfl
    | cons y ys =>
      by_cases hxy : x = y
      · subst hxy
        rcases ih ys with h | h
        · exact .inl (by simp [lexLE, h])
        · exact .inr (by simp [lexLE, h])
      · rcases lt_or_gt_of_ne hxy with h | h
        · exact .inl (by simp [lexLE, hxy, h])
        · refine .inr (by simp [lexLE, Ne.symm hxy, h])

theorem lexLE_trans {a b c : List Char} (hab : lexLE a b = true)
    (hbc : lexLE b c = true) : lexLE a c = true := by
  induction a generalizing b c with
  | nil => rfl
  | cons x xs ih =>
    cases b with
    | nil => simp [lexLE] at hab
    | cons y ys =>
      cases c with
      | nil => simp [lexLE] at hbc
      | cons z zs =>
        by_cases hxy : x = y <;> by_cases hyz : y = z
        · subst hxy; subst hyz
          simp only [lexLE, if_pos rfl] at *
          exact ih hab hbc
        · subst hxy
          simp only [lexLE, if_pos rfl, if_neg hyz, decide_eq_true_eq] at *
          simp [lexLE, hyz, hbc]
        · subst hyz
          simp only [lexLE, if_pos rfl, if_neg hxy, decide_eq_true_eq] at *
          simp [lexLE, hxy, hab]
        · simp only [lexLE, if_neg hxy, if_neg hyz, decide_eq_true_eq] at hab hbc
          have hxz : x < z := lt_trans hab hbc
          simp [lexLE, ne_of_lt hxz, hxz]

theorem sigLE_total (a b : CallTreeNode) : sigLE a b = true ∨ sigLE b a = true :=
  lexLE_total _ _

theorem sigLE_trans {a b c : CallTreeNode} (hab : sigLE a b = true)
    (hbc : sigLE b c = true) : sigLE a c = true := lexLE_trans hab hbc

theorem insertBySig_perm (c : CallTreeNode) (l : List CallTreeNode) :
    (insertBySig c l).Perm (c :: l) := by
  induction l with
  | nil => exact .refl _
  | cons d rest ih =>
    by_cases h : sigLE d c = true
    · simpa [insertBySig, h] using ((ih.cons d).trans (List.Perm.swap c d rest))
    · simp only [insertBySig, h]
      simp [List.Perm.refl]

theorem sortBySig_perm (l : List CallTreeNode) : (sortBySig l).Perm l := by
  suffices h : ∀ (l acc : List CallTreeNode),
      (l.foldl (fun acc c => insertBySig c acc) acc).Perm (acc ++ l) by
    simpa using h l []
  intro l
  induction l with
  | nil => intro acc; simp [List.Perm.refl]
  | cons c rest ih =>
    intro acc
    have h1 := ih (insertBySig c acc)
    have h2 : (insertBySig c acc ++ rest).Perm (acc ++ c :: rest) := by
      have := (insertBySig_perm c acc).append_right rest
      exact this.trans List.perm_middle.symm
    exact h1.trans h2

theorem insertBySig_sorted (c : CallTreeNode) (l : List CallTreeNode)
    (hl : l.Pairwise (fun a b => sigLE a b = true)) :
    (insertBySig c l).Pairwise (fun a b => sigLE a b = true) := by
  induction l with
  | nil => simp [insertBySig]
  | cons d rest ih =>
    rcases List.pairwise_cons.mp hl with ⟨hd, hrest⟩
    by_cases h : sigLE d c = true
    · simp only [insertBySig, h, if_pos]
      refine List.pairwise_cons.mpr ⟨?_, ih hrest⟩
      intro e he
      have hm : e = c ∨ e ∈ rest :=
        List.mem_cons.mp ((insertBySig_perm c rest).mem_iff.mp he)
      rcases hm with rfl | he'
      · exact h
      · exact hd e he'
    · simp only [insertBySig, h]
      refine List.pairwise_cons.mpr ⟨?_, hl⟩
      intro e he
      have hcd : sigLE c d = true := by
        rcases sigLE_total c d with h' | h'
        · exact h'
        · exact absurd h' h
      rcases List.mem_cons.mp he with rfl | he'
      · exact hcd
      · exact sigLE_trans hcd (hd e he')

theorem sortBySig_sorted (l : List CallTreeNode) :
    (sortBySig l).Pairwise (fun a b => sigLE a b = true) := by
  suffices h : ∀ (l acc : List CallTreeNode),
      acc.Pairwise (fun a b => sigLE a b = true) →
      (l.foldl (fun acc c => insertBySig c acc) acc).Pairwise
        (fun a b => sigLE a b = true) by
    exact h l [] (by simp)
  intro l
  induction l with
  | nil => intro acc h; simpa using h
  | cons c rest ih =>
    intro acc h
    exact ih _ (insertBySig_sorted c acc h)

theorem placeRow_map_fst (xs : ℚ) (l : List CallTreeNode) (x : ℚ) :
    (placeRow xs l x).map Prod.fst = l := by
  induction l generalizing x with
  | nil => rfl
  | cons c rest ih => simp [placeRow, ih]

theorem placeRow_getElem? (xs : ℚ) (l : List CallTreeNode) (x : ℚ) (k : Nat)
    (c : CallTreeNode) (hk : l[k]? = some c) :
    (placeRow xs l x)[k]? =
      some (c, x + xs * ((l.take k).map (fun d => (d.samples : ℚ))).sum) := by
  induction l generalizing x k with
  | nil => simp at hk
  | cons d rest ih =>
    cases k with
    | zero =>
      simp only [List.getElem?_cons_zero, Option.some.injEq] at hk
      subst hk
      simp [placeRow]
    | succ k =>
      simp only [List.getElem?_cons_succ] at hk
      have h2 := ih (x + xs * (d.samples : ℚ)) k hk
      have h3 : x + xs * (d.samples : ℚ) +
          xs * ((rest.take k).map (fun d => (d.samples : ℚ))).sum =
          x + xs * (((d :: rest).take (k + 1)).map (fun d => (d.samples : ℚ))).sum := by
        simp only [List.take_succ_cons, List.map_cons, List.sum_cons]
        ring
      have h4 : (placeRow xs (d :: rest) x)[k + 1]? =
          (placeRow xs rest (x + xs * (d.samples : ℚ)))[k]? := by
        simp [placeRow]
      rw [h4, h2, h3]

theorem depthList_pos {l : List CallTreeNode} (h : l ≠ []) : 1 ≤ depthList l := by
  cases l with
  | nil => exact absurd rfl h
  | cons t rest =>
    cases t with
    | mk s m cs =>
      simp only [depthList, CallTreeNode.depth]
      omega

theorem depthList_eq_foldr (l : List CallTreeNode) :
    depthList l = (l.map CallTreeNode.depth).foldr max 0 := by
  induction l with
  | nil => rfl
  | cons t rest ih => simp [depthList, ih]

theorem int_cast_sum_samples (l : List CallTreeNode) :
    (((l.map CallTreeNode.samples).sum : Int) : ℚ) =
      (l.map (fun d => (d.samples : ℚ))).sum := by
  induction l with
  | nil => simp
  | cons c rest ih => simp [ih]

theorem placeRow_width_sum (xs x : ℚ) (l : List CallTreeNode) :
    ((placeRow xs l x).map (fun p => xs * (p.1.samples : ℚ))).sum =
      xs * (l.map (fun d => (d.samples : ℚ))).sum := by
  induction l generalizing x with
  | nil => simp [placeRow]
  | cons c rest ih =>
    simp only [placeRow, List.map_cons, List.sum_cons, ih]
    ring

theorem sortBySig_sum_samples (l : List CallTreeNode) :
    ((sortBySig l).map (fun d => (d.samples : ℚ))).sum =
      (l.map (fun d => (d.samples : ℚ))).sum :=
  ((sortBySig_perm l).map _).sum_eq

/- ===================== Claim theorems ===================== -/

/-- C1 (amended): laying out a forest whose total samples is 0 fails with the
unguarded `ZeroDivisionError` raised by `x_scale = float(width) /
call_forest.samples()` — there is no explicit `EmptyForest` guard in the
code.  Because the division raises, no NaN/infinite rectangle is propagated,
and since layout is a pure function of the forest and dimensions, the
failure affects only this layout attempt. -/
theorem c1_zero_total_layout_fails (f : CallForest) (w h : ℚ)
    (h0 : f.samples = 0) : mkRenderer f w h = .error .zeroDivisionError := by
  simp [mkRenderer, h0]

/-- C1 witness: the empty forest has zero total samples and its layout fails
with the division-by-zero error. -/
theorem c1_zero_total_layout_fails_witness :
    CallForest.samples ⟨"empty", []⟩ = 0 ∧
    mkRenderer ⟨"empty", []⟩ 1200 800 = .error .zeroDivisionError :=
  ⟨rfl, c1_zero_total_layout_fails ⟨"empty", []⟩ 1200 800 rfl⟩

/-- C1 counterexample: on a zero-sample forest the layout fails with the
division-by-zero error, which is not the spec's named `EmptyForest` error —
the code has no such explicit guard. -/
theorem c1_counterexample :
    mkRenderer ⟨"empty", []⟩ 1200 800 = .error .zeroDivisionError ∧
    (Except.error LayoutError.zeroDivisionError : Except LayoutError Renderer) ≠
      .error .emptyForest :=
  ⟨rfl, by simp⟩

/-- C3 counterexample: for a forest with a single leaf root, `depth()`
returns 1 (the code takes the plain `max` over root depths), while the
claim's formula `1 + max` gives 2. -/
theorem c3_counterexample :
    CallForest.depth ⟨"f", [.mk "leaf.Frame" 5 []]⟩ ≠
      claimForestDepth ⟨"f", [.mk "leaf.Frame" 5 []]⟩ := by
  decide

/-- C3 (amended): `CallForest.depth()` equals the maximum of the roots'
subtree depths (with no extra `1 +`), `0` when there are no roots, and a
leaf node's subtree depth is 1. -/
theorem c3_forest_depth (f : CallForest) :
    f.depth = (f.roots.map CallTreeNode.depth).foldr max 0 ∧
    ∀ s m, (CallTreeNode.mk s m []).depth = 1 :=
  ⟨depthList_eq_foldr f.roots, fun _ _ => rfl⟩

/-- C4: evaluation of the Layout Engine on the spec's worked example
(`W = 1000`, `H = 200`, one root of 1000 samples): the renderer computes
`x_scale = 1` and `y_scale = 100`, the root row sits one scaled row height
above the bottom edge (`y = 100`), but the first (and only) root is placed
at `x = 2`, not at `x = 0`: `render` hard-codes the starting offset
`x = 2.0` (the line marked with the `# ****` comment). -/
theorem c4_first_root_not_at_zero :
    mkRenderer exampleForest 1000 200 = .ok exampleRenderer ∧
    rootPlacements exampleRenderer = [(exampleRoot, 2)] ∧
    rootRowY exampleRenderer = 100 ∧
    (2 : ℚ) ≠ 0 := by
  refine ⟨?_, rfl, ?_, by norm_num⟩
  · norm_num [mkRenderer, exampleForest, exampleRenderer, exampleRoot,
      CallForest.samples, CallForest.depth, CallTreeNode.samples,
      CallTreeNode.depth, depthList]
  · norm_num [rootRowY, exampleRenderer]

/-- C8 counterexample: `baseRenderer` is a live rendering session of
`baseForest`, and `zeroNode` is one of its rendered nodes; zooming into
`zeroNode` does not produce a laid-out view — renderer construction fails
with the division-by-zero error, because the zoom forest's total samples is
0. -/
theorem c8_counterexample :
    mkRenderer baseForest 1200 800 = .ok baseRenderer ∧
    zoom_in baseRenderer zeroNode = .error .zeroDivisionError := by
  constructor
  · norm_num [mkRenderer, baseForest, baseRenderer, zeroNode,
      CallForest.samples, CallForest.depth, CallTreeNode.samples,
      CallTreeNode.depth, depthList]
  · rfl

/-- C8 (amended): zooming into a rendered node `N` with nonzero samples
builds a new `CallForest` named `N.signature` whose sole root is the node
`N` itself (shared, not copied — in this pure embedding the root list holds
`N` itself), and lays it out with the originating view's width and height;
the original renderer, forest and nodes are unchanged (zoom constructs only
new values).  For a node with zero samples, renderer construction instead
fails with the division-by-zero error (see the counterexample). -/
theorem c8_zoom_same_dimensions (r : Renderer) (n : CallTreeNode)
    (hn : n.samples ≠ 0) :
    ∃ rz, zoom_in r n = .ok rz ∧
      rz.call_forest.name = n.signature ∧
      rz.call_forest.roots = [n] ∧
      rz.width = r.width ∧ rz.height = r.height := by
  have hs : ((zoomForest n).samples : ℚ) ≠ 0 := by
    simp only [zoomForest, CallForest.samples, List.map_cons, List.map_nil,
      List.sum_cons, List.sum_nil, add_zero]
    exact_mod_cast hn
  have hd1 : (zoomForest n).depth ≠ 0 := by
    have := depthList_pos (l := [n]) (by simp)
    simp only [zoomForest, CallForest.depth]
    omega
  have hd : ((zoomForest n).depth : ℚ) ≠ 0 := by exact_mod_cast hd1
  refine ⟨⟨zoomForest n, r.width, r.height,
      r.width / ((zoomForest n).samples : ℚ),
      r.height / ((zoomForest n).depth : ℚ)⟩, ?_, rfl, rfl, rfl, rfl⟩
  simp [zoom_in, mkRenderer, hs, hd]

/-- C8 witness: zooming `baseRenderer` into a 4-sample node succeeds and
produces a renderer with that node as sole root and the same 1200×800
dimensions. -/
theorem c8_zoom_same_dimensions_witness :
    ∃ rz, zoom_in baseRenderer (.mk "a.B.c" 4 []) = .ok rz ∧
      rz.call_forest.name = (CallTreeNode.mk "a.B.c" 4 []).signature ∧
      rz.call_forest.roots = [.mk "a.B.c" 4 []] ∧
      rz.width = baseRenderer.width ∧ rz.height = baseRenderer.height :=
  c8_zoom_same_dimensions baseRenderer (.mk "a.B.c" 4 []) (by decide)

/-- C9: for a forest with positive total samples `S` laid out at width `w`,
renderer construction succeeds, `x_scale * S = w` exactly, and the widths
`x_scale * root.samples` of the placed root rectangles sum to exactly `w`
(exact rational arithmetic standing for Python floats). -/
theorem c9_scale_consistency (f : CallForest) (w h : ℚ)
    (hS : 0 < f.samples) :
    ∃ r, mkRenderer f w h = .ok r ∧
      r.x_scale * (f.samples : ℚ) = w ∧
      ((rootPlacements r).map (fun p => r.x_scale * (p.1.samples : ℚ))).sum = w := by
  have hS0 : (f.samples : ℚ) ≠ 0 := by exact_mod_cast hS.ne'
  have hroots : f.roots ≠ [] := by
    intro hr
    rw [show f.samples = (f.roots.map CallTreeNode.samples).sum from rfl, hr] at hS
    simp at hS
  have hd1 : f.depth ≠ 0 := by
    have := depthList_pos hroots
    rw [show f.depth = depthList f.roots from rfl]
    omega
  have hd0 : ((f.depth : ℚ)) ≠ 0 := by exact_mod_cast hd1
  refine ⟨⟨f, w, h, w / (f.samples : ℚ), h / (f.depth : ℚ)⟩, ?_, ?_, ?_⟩
  · simp [mkRenderer, hS0, hd0]
  · exact div_mul_cancel₀ w hS0
  · show ((placeRow (w / (f.samples : ℚ)) (sortBySig f.roots) 2).map
      (fun p => (w / (f.samples : ℚ)) * (p.1.samples : ℚ))).sum = w
    rw [placeRow_width_sum, sortBySig_sum_samples, ← int_cast_sum_samples]
    exact div_mul_cancel₀ w hS0

/-- C9 witness: a 3-sample single-root forest at width 300 satisfies the
scale-consistency conclusion. -/
theorem c9_scale_consistency_witness :
    ∃ r, mkRenderer ⟨"wf", [.mk "a" 3 []]⟩ 300 100 = .ok r ∧
      r.x_scale * ((CallForest.samples ⟨"wf", [.mk "a" 3 []]⟩ : Int) : ℚ) = 300 ∧
      ((rootPlacements r).map (fun p => r.x_scale * (p.1.samples : ℚ))).sum = 300 :=
  c9_scale_consistency ⟨"wf", [.mk "a" 3 []]⟩ 300 100 (by decide)

theorem processTriple_error_eq {st : BState} {sig : List Char} {samp : Int}
    {d : Nat} {e : ParseError}
    (h : JmcCallForestParser.processTriple st sig samp d = .error e) :
    e = .topOfEmptyStack := by
  unfold JmcCallForestParser.processTriple at h
  by_cases hd : d = 0
  · simp [hd] at h
  · simp only [if_neg hd] at h
    cases htop : CallTreeNodeStack.top (CallTreeNodeStack.drop_to st.stack d) with
    | none =>
      rw [htop] at h
      simp only [Except.error.injEq] at h
      exact h.symm
    | some p =>
      rw [htop] at h
      simp at h

/-- C10: (a) `drop_to(d)` leaves the stack unchanged whenever `d` is at
least the stack size — Python's out-of-range slice truncates silently;
(b) consequently a line whose depth jumps past the previous depth + 1 is
attached, without any error, as a child of the current deepest stacked node
(`stack[-1]`); (c) processing a decoded line fails — with the error
modelling the unguarded `IndexError` from `stack[-1]`, not a named
`StackUnderflow` — exactly when the stack is empty and the line's depth is
positive. -/
theorem c10_depth_jump_behaviour (st : BState) (sig : List Char) (samp : Int)
    (d : Nat) :
    (st.stack.length ≤ d → CallTreeNodeStack.drop_to st.stack d = st.stack) ∧
    (st.stack.length ≤ d → st.stack ≠ [] → 0 < d →
      ∃ p, CallTreeNodeStack.top st.stack = some p ∧
        JmcCallForestParser.processTriple st sig samp d =
          .ok ⟨addChildAt (st.arena ++ [⟨sig, samp, []⟩]) p st.arena.length,
            st.roots, st.stack ++ [st.arena.length]⟩) ∧
    (JmcCallForestParser.processTriple st sig samp d = .error .topOfEmptyStack ↔
      st.stack = [] ∧ 0 < d) := by
  refine ⟨fun hlen => List.take_of_length_le hlen, ?_, ?_⟩
  · intro hlen hne hd
    have hstack2 : CallTreeNodeStack.drop_to st.stack d = st.stack :=
      List.take_of_length_le hlen
    refine ⟨st.stack.getLast hne, List.getLast?_eq_getLast _ hne, ?_⟩
    unfold JmcCallForestParser.processTriple
    rw [if_neg (Nat.pos_iff_ne_zero.mp hd), hstack2]
    rw [show CallTreeNodeStack.top st.stack = some (st.stack.getLast hne) from
      List.getLast?_eq_getLast _ hne]
  · constructor
    · intro h
      by_cases hd : d = 0
      · unfold JmcCallForestParser.processTriple at h
        simp [hd] at h
      · unfold JmcCallForestParser.processTriple at h
        rw [if_neg hd] at h
        cases htop : CallTreeNodeStack.top (CallTreeNodeStack.drop_to st.stack d) with
        | none =>
          have h2 : CallTreeNodeStack.drop_to st.stack d = [] :=
            List.getLast?_eq_none_iff.mp htop
          have h3 : d = 0 ∨ st.stack = [] := List.take_eq_nil_iff.mp h2
          exact ⟨h3.resolve_left hd, Nat.pos_of_ne_zero hd⟩
        | some p =>
          rw [htop] at h
          simp at h
    · rintro ⟨hempty, hd⟩
      unfold JmcCallForestParser.processTriple
      rw [if_neg (Nat.pos_iff_ne_zero.mp hd)]
      rw [show CallTreeNodeStack.top (CallTreeNodeStack.drop_to st.stack d) = none from
        List.getLast?_eq_none_iff.mpr (by simp [CallTreeNodeStack.drop_to, hempty])]

/-- C10 witness: with one node of depth 0 on the stack, a line of depth 5
(a jump past 0 + 1) is attached as a child of that node with no error, and
the stack is left untruncated. -/
theorem c10_depth_jump_behaviour_witness :
    ∃ p, CallTreeNodeStack.top [0] = some p ∧
      JmcCallForestParser.processTriple ⟨[⟨"r".data, 5, []⟩], [0], [0]⟩
          "x".data 1 5 =
        .ok ⟨addChildAt ([⟨"r".data, 5, []⟩] ++ [⟨"x".data, 1, []⟩]) p 1,
          [0], [0] ++ [1]⟩ :=
  (c10_depth_jump_behaviour ⟨[⟨"r".data, 5, []⟩], [0], [0]⟩ "x".data 1 5).2.1
    (by decide) (by decide) (by decide)

theorem length_sub_dropWhile_length (p : Char → Bool) (l : List Char) :
    l.length - (l.dropWhile p).length = (l.takeWhile p).length := by
  have h := congrArg List.length (List.takeWhile_append_dropWhile p l)
  simp only [List.length_append] at h
  omega

/-- C6 counterexample: on the line `"\x0b\x0b\x0bx\t1"` (field 0 led by three
vertical tabs), the code's `lstrip()` strips the vertical tabs, giving
signature `"x"` and depth 1, while the claim's "leading spaces" reading
leaves the signature unstripped and gives depth 0. -/
theorem c6_counterexample :
    JmcCallTreeLine.signature "\x0b\x0b\x0bx\t1".data ≠
      claimSignature "\x0b\x0b\x0bx\t1".data ∧
    JmcCallTreeLine.depth_below_root "\x0b\x0b\x0bx\t1".data = 1 ∧
    claimDepth "\x0b\x0b\x0bx\t1".data = 0 := by
  refine ⟨by decide, rfl, rfl⟩

/-- C6 (amended): for every input line, the decoder returns signature =
field 0 with leading *whitespace* stripped (`lstrip()` strips all Python
whitespace, not only spaces), depth = (count of leading whitespace
characters of field 0) integer-divided by the 3-space indent unit with the
remainder silently discarded, and samples = field 1 with commas removed
parsed as an integer (whenever the line has a field 1 that parses). -/
theorem c6_decoder_fields (line : List Char) :
    JmcCallTreeLine.signature line =
      ((JmcCallTreeLine.chunks line).headD []).dropWhile pyIsSpace ∧
    JmcCallTreeLine.indentation line =
      (((JmcCallTreeLine.chunks line).headD []).takeWhile pyIsSpace).length ∧
    JmcCallTreeLine.depth_below_root line =
      (((JmcCallTreeLine.chunks line).headD []).takeWhile pyIsSpace).length / 3 ∧
    (∀ f v, (JmcCallTreeLine.chunks line)[1]? = some f →
      pyInt (removeCommas f) = some v →
      JmcCallTreeLine.samples line = .ok v) := by
  have hind : JmcCallTreeLine.indentation line =
      (((JmcCallTreeLine.chunks line).headD []).takeWhile pyIsSpace).length :=
    length_sub_dropWhile_length pyIsSpace _
  refine ⟨rfl, hind, ?_, ?_⟩
  · show JmcCallTreeLine.indentation line / JmcCallTreeLine.INDENT_SPACES = _
    rw [hind]
    rfl
  · intro f v hf hv
    unfold JmcCallTreeLine.samples
    rw [hf]
    simp [hv]

/-- C6 witness: on the line `"   a\t12"` the decoder yields samples 12 (and,
by evaluation, signature `"a"` at depth 1). -/
theorem c6_decoder_fields_witness :
    JmcCallTreeLine.samples "   a\t12".data = .ok 12 :=
  (c6_decoder_fields "   a\t12".data).2.2.2 "12".data 12 rfl rfl

theorem splitTabs_ne_nil (l : List Char) : splitTabs l ≠ [] := by
  cases l with
  | nil => simp [splitTabs]
  | cons c rest =>
    unfold splitTabs
    cases h : splitTabs rest with
    | nil => simp
    | cons h t =>
      by_cases hc : c = '\t' <;> simp [hc]

theorem samples_eq_error_malformedLine_iff (line : List Char) :
    JmcCallTreeLine.samples line = .error .malformedLine ↔
      (JmcCallTreeLine.chunks line).length < 2 := by
  unfold JmcCallTreeLine.samples
  split
  · next h1 =>
    have := List.getElem?_eq_none_iff.mp h1
    constructor
    · intro _; omega
    · intro _; rfl
  · next f h1 =>
    have h2 : 1 < (JmcCallTreeLine.chunks line).length :=
      (List.getElem?_eq_some.mp h1).1
    split
    · constructor
      · intro h; simp at h
      · intro h; omega
    · constructor
      · intro h; simp at h
      · intro h; omega

theorem samples_eq_error_malformedSampleCount_iff (line : List Char) :
    JmcCallTreeLine.samples line = .error .malformedSampleCount ↔
      2 ≤ (JmcCallTreeLine.chunks line).length ∧
        pyInt (removeCommas ((JmcCallTreeLine.chunks line).getD 1 [])) = none := by
  unfold JmcCallTreeLine.samples
  split
  · next h1 =>
    have := List.getElem?_eq_none_iff.mp h1
    constructor
    · intro h; simp at h
    · rintro ⟨h2, _⟩; omega
  · next f h1 =>
    have h2 : 1 < (JmcCallTreeLine.chunks line).length :=
      (List.getElem?_eq_some.mp h1).1
    have hgd : (JmcCallTreeLine.chunks line).getD 1 [] = f := by
      rw [List.getD_eq_getElem?_getD, h1]
      rfl
    rw [hgd]
    split
    · next h3 => simp [h3]; omega
    · next v h3 => simp [h3]

theorem samples_ne_error_topOfEmptyStack (line : List Char) :
    JmcCallTreeLine.samples line ≠ .error .topOfEmptyStack := by
  unfold JmcCallTreeLine.samples
  split
  · simp
  · split <;> simp

theorem samples_ok_length {line : List Char} {v : Int}
    (h : JmcCallTreeLine.samples line = .ok v) :
    2 ≤ (JmcCallTreeLine.chunks line).length := by
  unfold JmcCallTreeLine.samples at h
  split at h
  · simp at h
  · next f h1 =>
    have := (List.getElem?_eq_some.mp h1).1
    omega

/-- C5: a line fails with the malformed-line error (the `IndexError` from
`chunks[1]`) exactly when it has fewer than two tab-separated fields; it
fails with the malformed-sample-count error (the `ValueError` from `int`)
exactly when it has at least two fields and field 1 is not numeric after
comma removal; and the first failing line's error aborts the whole parse
immediately, whatever lines follow — no forest value is produced. -/
theorem c5_parse_error_conditions :
    (∀ st line, JmcCallForestParser.process_line st line = .error .malformedLine ↔
      (JmcCallTreeLine.chunks line).length < 2) ∧
    (∀ st line,
      JmcCallForestParser.process_line st line = .error .malformedSampleCount ↔
        2 ≤ (JmcCallTreeLine.chunks line).length ∧
          pyInt (removeCommas ((JmcCallTreeLine.chunks line).getD 1 [])) = none) ∧
    (∀ st pre line rest st' e,
      JmcCallForestParser.parseLines st pre = .ok st' →
      JmcCallForestParser.process_line st' line = .error e →
      JmcCallForestParser.parseLines st (pre ++ line :: rest) = .error e) := by
  refine ⟨?_, ?_, ?_⟩
  · intro st line
    unfold JmcCallForestParser.process_line
    cases hs : JmcCallTreeLine.samples line with
    | error e =>
      cases e with
      | malformedLine =>
        exact iff_of_true rfl ((samples_eq_error_malformedLine_iff line).mp hs)
      | malformedSampleCount =>
        have hlen : ¬ (JmcCallTreeLine.chunks line).length < 2 := by
          have := ((samples_eq_error_malformedSampleCount_iff line).mp hs).1
          omega
        exact iff_of_false (by simp) hlen
      | topOfEmptyStack => exact absurd hs (samples_ne_error_topOfEmptyStack line)
    | ok samp =>
      have hlen := samples_ok_length hs
      refine iff_of_false ?_ (by omega)
      intro h
      exact absurd (processTriple_error_eq h) (by simp)
  · intro st line
    unfold JmcCallForestParser.process_line
    cases hs : JmcCallTreeLine.samples line with
    | error e =>
      cases e with
      | malformedLine =>
        have h1 := (samples_eq_error_malformedLine_iff line).mp hs
        refine iff_of_false (by simp) ?_
        rintro ⟨h2, _⟩
        omega
      | malformedSampleCount =>
        exact iff_of_true rfl
          ((samples_eq_error_malformedSampleCount_iff line).mp hs)
      | topOfEmptyStack => exact absurd hs (samples_ne_error_topOfEmptyStack line)
    | ok samp =>
      refine iff_of_false ?_ ?_
      · intro h
        exact absurd (processTriple_error_eq h) (by simp)
      · intro h
        have := (samples_eq_error_malformedSampleCount_iff line).mpr h
        rw [hs] at this
        simp at this
  · intro st pre
    induction pre generalizing st with
    | nil =>
      intro line rest st' e hok herr
      simp only [JmcCallForestParser.parseLines] at hok
      cases hok
      show JmcCallForestParser.parseLines st (line :: rest) = .error e
      simp only [JmcCallForestParser.parseLines]
      rw [herr]
    | cons l pre' ih =>
      intro line rest st' e hok herr
      simp only [JmcCallForestParser.parseLines] at hok
      cases hpl : JmcCallForestParser.process_line st l with
      | error e' => rw [hpl] at hok; simp at hok
      | ok st1 =>
        rw [hpl] at hok
        show JmcCallForestParser.parseLines st (l :: (pre' ++ line :: rest)) = .error e
        simp only [JmcCallForestParser.parseLines]
        rw [hpl]
        exact ih st1 line rest st' e hok herr

/-- C5 witness: a tab-less first line aborts the parse immediately with the
malformed-line error, even though a well-formed line follows. -/
theorem c5_parse_error_conditions_witness :
    JmcCallForestParser.parseLines initState ["nope".data, "a\t1".data] =
      .error .malformedLine :=
  c5_parse_error_conditions.2.2 initState [] "nope".data ["a\t1".data]
    initState .malformedLine rfl (by rfl)

theorem placeRow_length (xs : ℚ) (l : List CallTreeNode) (x : ℚ) :
    (placeRow xs l x).length = l.length := by
  induction l generalizing x with
  | nil => rfl
  | cons c rest ih => simp [placeRow, ih]

theorem childPlacements_width_sum (xs ys : ℚ) (t : CallTreeNode) (x y : ℚ) :
    ((childPlacements xs ys t x y).map (fun p => xs * (p.1.samples : ℚ))).sum =
      xs * ((sortBySig t.children).map (fun d => (d.samples : ℚ))).sum := by
  unfold childPlacements
  rw [List.map_map]
  exact placeRow_width_sum xs x (sortBySig t.children)

/-- C7: for a node `t` placed at `(x, y)` (with `xScale > 0` and the data
model's nonnegative sample counts), `render_call_tree` places the children
sorted ascending by signature, child `k` at x-origin `x` plus the widths of
the previously placed siblings and at y-origin `y - yScale` (one row toward
increasing depth: the root row is nearest the bottom edge and depth grows
upward, i.e. toward smaller `y`), each with width `xScale * child.samples`;
and whenever the children's samples sum to at most `t.samples`, the
children's widths sum to at most `t`'s rectangle width (with equality
exactly when the sample sums are equal), and no child rectangle starts left
of `x` or ends right of `x + xScale * t.samples`. -/
theorem c7_children_layout (xs ys : ℚ) (t : CallTreeNode) (x y : ℚ)
    (hxs : 0 < xs) (hnn : ∀ c ∈ t.children, 0 ≤ c.samples) :
    (sortBySig t.children).Pairwise (fun a b => sigLE a b = true) ∧
    (sortBySig t.children).Perm t.children ∧
    (∀ k c, (sortBySig t.children)[k]? = some c →
      (childPlacements xs ys t x y)[k]? =
        some (c, x + xs * (((sortBySig t.children).take k).map
          (fun d => (d.samples : ℚ))).sum, y - ys)) ∧
    ((t.children.map CallTreeNode.samples).sum ≤ t.samples →
      ((childPlacements xs ys t x y).map (fun p => xs * (p.1.samples : ℚ))).sum ≤
          xs * (t.samples : ℚ) ∧
      (((childPlacements xs ys t x y).map (fun p => xs * (p.1.samples : ℚ))).sum =
          xs * (t.samples : ℚ) ↔
        (t.children.map CallTreeNode.samples).sum = t.samples) ∧
      (∀ p ∈ childPlacements xs ys t x y,
        x ≤ p.2.1 ∧
        p.2.1 + xs * (p.1.samples : ℚ) ≤ x + xs * (t.samples : ℚ) ∧
        p.2.2 = y - ys)) := by
  have hperm := sortBySig_perm t.children
  have hnnQ : ∀ c ∈ sortBySig t.children, (0 : ℚ) ≤ (c.samples : ℚ) := by
    intro c hc
    exact_mod_cast hnn c (hperm.mem_iff.mp hc)
  have key : ∀ k c, (sortBySig t.children)[k]? = some c →
      (childPlacements xs ys t x y)[k]? =
        some (c, x + xs * (((sortBySig t.children).take k).map
          (fun d => (d.samples : ℚ))).sum, y - ys) := by
    intro k c hk
    unfold childPlacements
    rw [List.getElem?_map, placeRow_getElem? xs _ x k c hk]
    rfl
  refine ⟨sortBySig_sorted _, hperm, key, ?_⟩
  intro hsum
  have hsumQ : ((sortBySig t.children).map (fun d => (d.samples : ℚ))).sum ≤
      (t.samples : ℚ) := by
    rw [sortBySig_sum_samples, ← int_cast_sum_samples]
    exact_mod_cast hsum
  have hW := childPlacements_width_sum xs ys t x y
  refine ⟨?_, ?_, ?_⟩
  · rw [hW]
    exact mul_le_mul_of_nonneg_left hsumQ hxs.le
  · rw [hW]
    constructor
    · intro h
      have h2 := mul_left_cancel₀ hxs.ne' h
      rw [sortBySig_sum_samples, ← int_cast_sum_samples] at h2
      exact_mod_cast h2
    · intro h
      rw [sortBySig_sum_samples, ← int_cast_sum_samples, h]
  · intro p hp
    obtain ⟨k, hk⟩ := List.mem_iff_getElem?.mp hp
    have hklen : k < (sortBySig t.children).length := by
      have h1 := (List.getElem?_eq_some.mp hk).1
      have hlen : (childPlacements xs ys t x y).length =
          (sortBySig t.children).length := by
        unfold childPlacements
        rw [List.length_map, placeRow_length]
      omega
    obtain ⟨c, hc⟩ : ∃ c, (sortBySig t.children)[k]? = some c :=
      ⟨(sortBySig t.children)[k], List.getElem?_eq_getElem hklen⟩
    have hpk := key k c hc
    rw [hk] at hpk
    have hpe : p = (c, x + xs * (((sortBySig t.children).take k).map
        (fun d => (d.samples : ℚ))).sum, y - ys) := Option.some.inj hpk
    subst hpe
    have htake_nonneg : (0 : ℚ) ≤
        (((sortBySig t.children).take k).map (fun d => (d.samples : ℚ))).sum := by
      refine List.sum_nonneg ?_
      intro q hq
      obtain ⟨d, hd, rfl⟩ := List.mem_map.mp hq
      exact hnnQ d (List.take_subset k _ hd)
    have hdrop_nonneg : (0 : ℚ) ≤
        (((sortBySig t.children).drop (k + 1)).map (fun d => (d.samples : ℚ))).sum := by
      refine List.sum_nonneg ?_
      intro q hq
      obtain ⟨d, hd, rfl⟩ := List.mem_map.mp hq
      exact hnnQ d (List.drop_subset _ _ hd)
    have htake_succ : (((sortBySig t.children).take (k + 1)).map
        (fun d => (d.samples : ℚ))).sum =
        (((sortBySig t.children).take k).map (fun d => (d.samples : ℚ))).sum +
          (c.samples : ℚ) := by
      rw [List.take_succ, hc]
      simp
    have hsplit : ((sortBySig t.children).map (fun d => (d.samples : ℚ))).sum =
        (((sortBySig t.children).take (k + 1)).map (fun d => (d.samples : ℚ))).sum +
          (((sortBySig t.children).drop (k + 1)).map (fun d => (d.samples : ℚ))).sum := by
      conv_lhs => rw [← List.take_append_drop (k + 1) (sortBySig t.children)]
      rw [List.map_append, List.sum_append]
    dsimp only
    refine ⟨?_, ?_, rfl⟩
    · have : (0 : ℚ) ≤ xs * (((sortBySig t.children).take k).map
          (fun d => (d.samples : ℚ))).sum := mul_nonneg hxs.le htake_nonneg
      linarith
    · have h1 : (((sortBySig t.children).take k).map
          (fun d => (d.samples : ℚ))).sum + (c.samples : ℚ) ≤ (t.samples : ℚ) := by
        rw [← htake_succ]
        have := hsumQ
        rw [hsplit] at this
        linarith
      have h2 := mul_le_mul_of_nonneg_left h1 hxs.le
      show x + xs * (((sortBySig t.children).take k).map
          (fun d => (d.samples : ℚ))).sum + xs * (c.samples : ℚ) ≤
        x + xs * (t.samples : ℚ)
      nlinarith [h2]

/-- C7 witness: a node with children of 4 and 6 samples (10 total) at
`xScale = 1`, `yScale = 10`, placed at `(0, 190)`, satisfies the full layout
and containment conclusion. -/
theorem c7_children_layout_witness :
    (sortBySig (CallTreeNode.mk "p" 10 [.mk "a" 4 [], .mk "b" 6 []]).children).Pairwise
      (fun a b => sigLE a b = true) ∧
    (sortBySig (CallTreeNode.mk "p" 10 [.mk "a" 4 [], .mk "b" 6 []]).children).Perm
      (CallTreeNode.mk "p" 10 [.mk "a" 4 [], .mk "b" 6 []]).children ∧
    (∀ k c,
      (sortBySig (CallTreeNode.mk "p" 10 [.mk "a" 4 [], .mk "b" 6 []]).children)[k]? =
        some c →
      (childPlacements 1 10 (.mk "p" 10 [.mk "a" 4 [], .mk "b" 6 []]) 0 190)[k]? =
        some (c, 0 + 1 * (((sortBySig
          (CallTreeNode.mk "p" 10 [.mk "a" 4 [], .mk "b" 6 []]).children).take k).map
            (fun d => (d.samples : ℚ))).sum, 190 - 10)) ∧
    (((CallTreeNode.mk "p" 10 [.mk "a" 4 [], .mk "b" 6 []]).children.map
        CallTreeNode.samples).sum ≤
          (CallTreeNode.mk "p" 10 [.mk "a" 4 [], .mk "b" 6 []]).samples →
      ((childPlacements 1 10 (.mk "p" 10 [.mk "a" 4 [], .mk "b" 6 []]) 0 190).map
          (fun p => 1 * (p.1.samples : ℚ))).sum ≤
        1 * (((CallTreeNode.mk "p" 10 [.mk "a" 4 [], .mk "b" 6 []]).samples : Int) : ℚ) ∧
      (((childPlacements 1 10 (.mk "p" 10 [.mk "a" 4 [], .mk "b" 6 []]) 0 190).map
          (fun p => 1 * (p.1.samples : ℚ))).sum =
        1 * (((CallTreeNode.mk "p" 10 [.mk "a" 4 [], .mk "b" 6 []]).samples : Int) : ℚ) ↔
        ((CallTreeNode.mk "p" 10 [.mk "a" 4 [], .mk "b" 6 []]).children.map
          CallTreeNode.samples).sum =
          (CallTreeNode.mk "p" 10 [.mk "a" 4 [], .mk "b" 6 []]).samples) ∧
      (∀ p ∈ childPlacements 1 10 (.mk "p" 10 [.mk "a" 4 [], .mk "b" 6 []]) 0 190,
        (0 : ℚ) ≤ p.2.1 ∧
        p.2.1 + 1 * (p.1.samples : ℚ) ≤ 0 + 1 *
          (((CallTreeNode.mk "p" 10 [.mk "a" 4 [], .mk "b" 6 []]).samples : Int) : ℚ) ∧
        p.2.2 = 190 - 10)) := by
  have h := c7_children_layout 1 10 (.mk "p" 10 [.mk "a" 4 [], .mk "b" 6 []]) 0 190
    (by norm_num) (by decide)
  refine ⟨h.1, h.2.1, h.2.2.1, ?_⟩
  intro hsum
  have h4 := h.2.2.2 hsum
  refine ⟨h4.1, h4.2.1, ?_⟩
  intro p hp
  have := h4.2.2 p hp
  simpa using this

/- ============ Arena parent/chain lemmas (for C2) ============ -/

theorem scanParent_eq_none_iff (n : Nat) (l : List PNode) (i : Nat) :
    scanParent n l i = none ↔ ∀ nd ∈ l, n ∉ nd.children := by
  induction l generalizing i with
  | nil => simp [scanParent]
  | cons nd rest ih =>
    by_cases h : n ∈ nd.children
    · simp [scanParent, h]
    · simp [scanParent, h, ih (i + 1)]

theorem scanParent_some_imp {n : Nat} {l : List PNode} {i p : Nat}
    (h : scanParent n l i = some p) :
    i ≤ p ∧ p - i < l.length ∧ n ∈ (l.getD (p - i) ⟨[], 0, []⟩).children := by
  induction l generalizing i with
  | nil => simp [scanParent] at h
  | cons nd rest ih =>
    by_cases hm : n ∈ nd.children
    · simp only [scanParent, if_pos hm, Option.some.injEq] at h
      subst h
      simpa using hm
    · simp only [scanParent, if_neg hm] at h
      obtain ⟨h1, h2, h3⟩ := ih h
      refine ⟨by omega, by simp only [List.length_cons]; omega, ?_⟩
      have he : p - i = (p - (i + 1)) + 1 := by omega
      rw [he, List.getD_cons_succ]
      exact h3

theorem parentOf_none_iff (a : List PNode) (n : Nat) :
    parentOf a n = none ↔ ∀ nd ∈ a, n ∉ nd.children :=
  scanParent_eq_none_iff n a 0

theorem childrenAt_eq_nil_of_ge {a : List PNode} {q : Nat} (h : a.length ≤ q) :
    childrenAt a q = [] := by
  unfold childrenAt
  rw [List.getD_eq_getElem?_getD, List.getElem?_eq_none_iff.mpr h]
  rfl

theorem childrenAt_of_lt {a : List PNode} {q : Nat} (h : q < a.length) :
    a.getD q ⟨[], 0, []⟩ ∈ a := by
  rw [List.getD_eq_getElem?_getD, List.getElem?_eq_getElem h]
  exact List.getElem_mem h

theorem parentOf_none_iff' (a : List PNode) (n : Nat) :
    parentOf a n = none ↔ ∀ q, n ∉ childrenAt a q := by
  rw [parentOf_none_iff]
  constructor
  · intro h q hq
    by_cases hlt : q < a.length
    · exact h _ (childrenAt_of_lt hlt) hq
    · rw [childrenAt_eq_nil_of_ge (by omega)] at hq
      simp at hq
  · intro h nd hnd hmem
    obtain ⟨q, hq, hval⟩ := List.mem_iff_getElem.mp hnd
    refine h q ?_
    unfold childrenAt
    rw [List.getD_eq_getElem?_getD, List.getElem?_eq_getElem hq]
    simpa [hval] using hmem

theorem parentOf_some_imp {a : List PNode} {n p : Nat}
    (h : parentOf a n = some p) :
    p < a.length ∧ n ∈ childrenAt a p := by
  obtain ⟨h1, h2, h3⟩ := scanParent_some_imp h
  constructor
  · omega
  · unfold childrenAt
    simpa using h3

theorem parentOf_some_of_unique {a : List PNode} {n p : Nat}
    (_hp : p < a.length) (hmem : n ∈ childrenAt a p)
    (huniq : ∀ q1 q2, n ∈ childrenAt a q1 → n ∈ childrenAt a q2 → q1 = q2) :
    parentOf a n = some p := by
  cases hpar : parentOf a n with
  | none =>
    exfalso
    exact (parentOf_none_iff' a n).mp hpar p hmem
  | some q =>
    have h2 := parentOf_some_imp hpar
    rw [huniq q p h2.2 hmem]

theorem chainLen_zero_of_none {a : List PNode} {n : Nat}
    (h : parentOf a n = none) : chainLen a n = 0 := by
  cases n with
  | zero => rfl
  | succ m => simp [chainLen, chainLenAux, h]

theorem goodArena_parent_lt {a : List PNode} (hg : GoodArena a) {n p : Nat}
    (h : parentOf a n = some p) : p < n := by
  obtain ⟨hlt, hmem⟩ := parentOf_some_imp h
  exact (hg.1 p n hmem).1

theorem chainLenAux_fuel {a : List PNode} (hg : GoodArena a) :
    ∀ f n, n ≤ f → chainLenAux a f n = chainLen a n := by
  intro f
  induction f using Nat.strong_induction_on with
  | _ f ih =>
    intro n hn
    cases f with
    | zero =>
      have hz : n = 0 := by omega
      subst hz
      rfl
    | succ m =>
      cases hpar : parentOf a n with
      | none =>
        rw [chainLen_zero_of_none hpar]
        simp [chainLenAux, hpar]
      | some p =>
        have hpn := goodArena_parent_lt hg hpar
        obtain ⟨k, rfl⟩ : ∃ k, n = k + 1 := ⟨n - 1, by omega⟩
        have h1 : chainLenAux a (m + 1) (k + 1) = chainLenAux a m p + 1 := by
          simp [chainLenAux, hpar]
        have h2 : chainLen a (k + 1) = chainLenAux a k p + 1 := by
          show chainLenAux a (k + 1) (k + 1) = _
          simp [chainLenAux, hpar]
        rw [h1, h2]
        have e1 : chainLenAux a m p = chainLen a p :=
          ih m (by omega) p (by omega)
        have e2 : chainLenAux a k p = chainLen a p :=
          ih k (by omega) p (by omega)
        rw [e1, e2]

theorem chainLen_succ_of_parent {a : List PNode} (hg : GoodArena a) {n p : Nat}
    (h : parentOf a n = some p) : chainLen a n = chainLen a p + 1 := by
  have hpn := goodArena_parent_lt hg h
  obtain ⟨k, rfl⟩ : ∃ k, n = k + 1 := ⟨n - 1, by omega⟩
  show chainLenAux a (k + 1) (k + 1) = _
  simp only [chainLenAux, h]
  rw [chainLenAux_fuel hg k p (by omega)]

theorem chainLenAux_congr_below {a b : List PNode} (hg : GoodArena a) (N : Nat)
    (hpar : ∀ m, m < N → parentOf b m = parentOf a m) :
    ∀ f m, m < N → chainLenAux b f m = chainLenAux a f m := by
  intro f
  induction f with
  | zero => intro m _; rfl
  | succ g ih =>
    intro m hm
    cases hp : parentOf a m with
    | none => simp [chainLenAux, hpar m hm, hp]
    | some p =>
      have hlt := goodArena_parent_lt hg hp
      simp only [chainLenAux, hpar m hm, hp]
      rw [ih p (by omega)]

theorem chainLen_congr_below {a b : List PNode} (hg : GoodArena a) (N : Nat)
    (hpar : ∀ m, m < N → parentOf b m = parentOf a m) {m : Nat} (hm : m < N) :
    chainLen b m = chainLen a m :=
  chainLenAux_congr_below hg N hpar m m hm

theorem parentOf_congr {a b : List PNode} (hgb : GoodArena b) {m : Nat}
    (hiff : ∀ q, (m ∈ childrenAt b q ↔ m ∈ childrenAt a q)) :
    parentOf b m = parentOf a m := by
  cases hpa : parentOf a m with
  | none =>
    rw [parentOf_none_iff']
    intro q
    rw [hiff q]
    exact (parentOf_none_iff' a m).mp hpa q
  | some p =>
    obtain ⟨hlt, hmem⟩ := parentOf_some_imp hpa
    have hmem' : m ∈ childrenAt b p := (hiff p).mpr hmem
    have hpb : p < b.length := by
      by_contra hc
      rw [childrenAt_eq_nil_of_ge (by omega)] at hmem'
      simp at hmem'
    exact parentOf_some_of_unique hpb hmem' (hgb.2 m)

theorem childrenAt_append (a : List PNode) (sig : List Char) (samp : Int)
    (q : Nat) :
    childrenAt (a ++ [⟨sig, samp, []⟩]) q = childrenAt a q := by
  unfold childrenAt
  rw [List.getD_eq_getElem?_getD, List.getD_eq_getElem?_getD,
    List.getElem?_append]
  by_cases h : q < a.length
  · rw [if_pos h]
  · rw [if_neg h]
    have h2 : a[q]? = none := List.getElem?_eq_none_iff.mpr (by omega)
    rw [h2]
    cases hqe : q - a.length with
    | zero => rfl
    | succ m => rfl

theorem addChildAt_length (a : List PNode) (p n : Nat) :
    (addChildAt a p n).length = a.length := by
  unfold addChildAt
  cases h : a[p]? with
  | none => rfl
  | some nd => simp [List.length_set]

theorem addChildAt_eq_set {a : List PNode} {p : Nat} (hp : p < a.length)
    (n : Nat) :
    addChildAt a p n =
      a.set p ⟨(a.getD p ⟨[], 0, []⟩).signature, (a.getD p ⟨[], 0, []⟩).samples,
        (a.getD p ⟨[], 0, []⟩).children ++ [n]⟩ := by
  unfold addChildAt
  rw [List.getElem?_eq_getElem hp, List.getD_eq_getElem?_getD,
    List.getElem?_eq_getElem hp]
  rfl

theorem childrenAt_addChildAt {a : List PNode} {p : Nat} (hp : p < a.length)
    (n : Nat) (q : Nat) :
    childrenAt (addChildAt a p n) q =
      if q = p then childrenAt a q ++ [n] else childrenAt a q := by
  rw [addChildAt_eq_set hp n]
  unfold childrenAt
  rw [List.getD_eq_getElem?_getD, List.getElem?_set]
  by_cases hq : q = p
  · subst hq
    simp [hp, List.getD_eq_getElem?_getD]
  · rw [if_neg (fun he => hq he.symm), if_neg hq, List.getD_eq_getElem?_getD]

theorem goodArena_append {a : List PNode} (hg : GoodArena a) (sig : List Char)
    (samp : Int) : GoodArena (a ++ [⟨sig, samp, []⟩]) := by
  constructor
  · intro q c hc
    rw [childrenAt_append] at hc
    have h := hg.1 q c hc
    simp only [List.length_append, List.length_singleton]
    omega
  · intro c q1 q2 h1 h2
    rw [childrenAt_append] at h1 h2
    exact hg.2 c q1 q2 h1 h2

theorem parentOf_append {a : List PNode} (hg : GoodArena a) (sig : List Char)
    (samp : Int) (m : Nat) :
    parentOf (a ++ [⟨sig, samp, []⟩]) m = parentOf a m :=
  parentOf_congr (goodArena_append hg sig samp)
    (fun q => by rw [childrenAt_append])

theorem parentOf_append_self {a : List PNode} (hg : GoodArena a)
    (sig : List Char) (samp : Int) :
    parentOf (a ++ [⟨sig, samp, []⟩]) a.length = none := by
  rw [parentOf_append hg, parentOf_none_iff']
  intro q hq
  exact absurd (hg.1 q _ hq).2 (by omega)

theorem childrenAt_attach {a : List PNode} {p : Nat} (hp : p < a.length)
    (sig : List Char) (samp : Int) (q : Nat) :
    childrenAt (addChildAt (a ++ [⟨sig, samp, []⟩]) p a.length) q =
      if q = p then childrenAt a q ++ [a.length] else childrenAt a q := by
  rw [childrenAt_addChildAt (by simp only [List.length_append]; omega) a.length q]
  by_cases hq : q = p
  · rw [if_pos hq, if_pos hq, childrenAt_append]
  · rw [if_neg hq, if_neg hq, childrenAt_append]

theorem goodArena_attach {a : List PNode} (hg : GoodArena a) {p : Nat}
    (hp : p < a.length) (sig : List Char) (samp : Int) :
    GoodArena (addChildAt (a ++ [⟨sig, samp, []⟩]) p a.length) := by
  have hlen : (addChildAt (a ++ [⟨sig, samp, []⟩]) p a.length).length =
      a.length + 1 := by
    rw [addChildAt_length]
    simp
  constructor
  · intro q c hc
    rw [childrenAt_attach hp sig samp q] at hc
    rw [hlen]
    by_cases hq : q = p
    · rw [if_pos hq] at hc
      rcases List.mem_append.mp hc with h | h
      · have h2 := hg.1 q c h
        omega
      · simp only [List.mem_singleton] at h
        subst h
        subst hq
        omega
    · rw [if_neg hq] at hc
      have h2 := hg.1 q c hc
      omega
  · intro c q1 q2 h1 h2
    rw [childrenAt_attach hp sig samp q1] at h1
    rw [childrenAt_attach hp sig samp q2] at h2
    by_cases hc : c = a.length
    · subst hc
      have hq1 : q1 = p := by
        by_cases h : q1 = p
        · exact h
        · rw [if_neg h] at h1
          exact absurd (hg.1 q1 _ h1).2 (by omega)
      have hq2 : q2 = p := by
        by_cases h : q2 = p
        · exact h
        · rw [if_neg h] at h2
          exact absurd (hg.1 q2 _ h2).2 (by omega)
      rw [hq1, hq2]
    · have h1' : c ∈ childrenAt a q1 := by
        by_cases h : q1 = p
        · rw [if_pos h] at h1
          rcases List.mem_append.mp h1 with hh | hh
          · exact hh
          · simp only [List.mem_singleton] at hh
            exact absurd hh hc
        · rwa [if_neg h] at h1
      have h2' : c ∈ childrenAt a q2 := by
        by_cases h : q2 = p
        · rw [if_pos h] at h2
          rcases List.mem_append.mp h2 with hh | hh
          · exact hh
          · simp only [List.mem_singleton] at hh
            exact absurd hh hc
        · rwa [if_neg h] at h2
      exact hg.2 c q1 q2 h1' h2'

theorem parentOf_attach_old {a : List PNode} (hg : GoodArena a) {p : Nat}
    (hp : p < a.length) (sig : List Char) (samp : Int) {m : Nat}
    (hm : m ≠ a.length) :
    parentOf (addChildAt (a ++ [⟨sig, samp, []⟩]) p a.length) m =
      parentOf a m := by
  refine parentOf_congr (goodArena_attach hg hp sig samp) (fun q => ?_)
  rw [childrenAt_attach hp sig samp q]
  by_cases hq : q = p
  · rw [if_pos hq]
    constructor
    · intro h
      rcases List.mem_append.mp h with hh | hh
      · exact hh
      · simp only [List.mem_singleton] at hh
        exact absurd hh hm
    · intro h
      exact List.mem_append_left _ h
  · rw [if_neg hq]

theorem parentOf_attach_new {a : List PNode} (hg : GoodArena a) {p : Nat}
    (hp : p < a.length) (sig : List Char) (samp : Int) :
    parentOf (addChildAt (a ++ [⟨sig, samp, []⟩]) p a.length) a.length =
      some p := by
  have hga := goodArena_attach hg hp sig samp
  refine parentOf_some_of_unique ?_ ?_ (hga.2 a.length)
  · rw [addChildAt_length]
    simp only [List.length_append, List.length_singleton]
    omega
  · rw [childrenAt_attach hp sig samp p, if_pos rfl]
    exact List.mem_append_right _ (by simp)

theorem rootIndices_append (ds : List Nat) (d : Nat) :
    rootIndices (ds ++ [d]) =
      rootIndices ds ++ if d = 0 then [ds.length] else [] := by
  unfold rootIndices
  have hlen : (ds ++ [d]).length = ds.length + 1 := by simp
  rw [hlen, List.range_succ, List.filter_append]
  congr 1
  · refine List.filter_congr ?_
    intro i hi
    have hi' : i < ds.length := List.mem_range.mp hi
    rw [List.getD_append _ _ _ _ hi']
  · have hd : (ds ++ [d]).getD ds.length 1 = d := by
      rw [List.getD_eq_getElem?_getD, List.getElem?_append_right (le_refl _)]
      simp
    by_cases h : d = 0
    · simp [List.filter, hd, h]
    · simp [List.filter, hd, h]

theorem take_getD {l : List Nat} {d j : Nat} (hj : j < d) :
    (l.take d).getD j 0 = l.getD j 0 := by
  rw [List.getD_eq_getElem?_getD, List.getD_eq_getElem?_getD,
    List.getElem?_take, if_pos hj]

theorem take_getLast? {l : List Nat} {d : Nat} (hd1 : 1 ≤ d) (hd : d ≤ l.length) :
    (l.take d).getLast? = some (l.getD (d - 1) 0) := by
  rw [List.getLast?_eq_getElem?]
  have hlen : (l.take d).length = d := by
    rw [List.length_take]
    exact inf_eq_left.mpr hd
  rw [hlen, List.getElem?_take, if_pos (by omega)]
  have hdl : d - 1 < l.length := by omega
  rw [List.getElem?_eq_getElem hdl, List.getD_eq_getElem?_getD,
    List.getElem?_eq_getElem hdl]
  rfl

theorem processTriple_step (st : BState) (ds : List Nat) (sig : List Char)
    (samp : Int) (d : Nat) (hinv : ParserInv st ds) (hd : d ≤ st.stack.length) :
    ∃ st', JmcCallForestParser.processTriple st sig samp d = .ok st' ∧
      ParserInv st' (ds ++ [d]) ∧ st'.stack.length = d + 1 := by
  obtain ⟨hlen, hgood, hchain, hroots, hstack⟩ := hinv
  by_cases hd0 : d = 0
  · subst hd0
    have hok : JmcCallForestParser.processTriple st sig samp 0 =
        .ok ⟨st.arena ++ [(⟨sig, samp, []⟩ : PNode)],
          st.roots ++ [st.arena.length],
          CallTreeNodeStack.drop_to st.stack 0 ++ [st.arena.length]⟩ := rfl
    refine ⟨_, hok, ?_, ?_⟩
    · have hpar : ∀ m, parentOf (st.arena ++ [(⟨sig, samp, []⟩ : PNode)]) m =
          parentOf st.arena m := parentOf_append hgood sig samp
      refine ⟨?_, goodArena_append hgood sig samp, ?_, ?_, ?_⟩
      · simp [hlen]
      · intro i hi
        simp only [List.length_append, List.length_singleton] at hi
        by_cases hilt : i < ds.length
        · rw [chainLen_congr_below hgood (i + 1) (fun m _ => hpar m) (by omega),
            hchain i hilt, List.getD_append _ _ _ _ hilt]
        · have hie : i = ds.length := by omega
          subst hie
          have hrhs : (ds ++ [0]).getD ds.length 0 = 0 := by
            rw [List.getD_eq_getElem?_getD,
              List.getElem?_append_right (le_refl _)]
            simp
          rw [hrhs, ← hlen]
          exact chainLen_zero_of_none (parentOf_append_self hgood sig samp)
      · rw [hroots, rootIndices_append, if_pos rfl, hlen]
      · intro j hj
        simp only [CallTreeNodeStack.drop_to, List.take_zero, List.nil_append,
          List.length_singleton] at hj ⊢
        have hj0 : j = 0 := by omega
        subst hj0
        simp only [List.getD_cons_zero]
        constructor
        · simp
        · exact chainLen_zero_of_none (parentOf_append_self hgood sig samp)
    · simp [CallTreeNodeStack.drop_to]
  · -- d ≥ 1: attach to the top of the truncated stack
    have hd1 : 1 ≤ d := by omega
    have hje : d - 1 < st.stack.length := by omega
    obtain ⟨hplt, hpchain⟩ := hstack (d - 1) hje
    have htop : CallTreeNodeStack.top (CallTreeNodeStack.drop_to st.stack d) =
        some (st.stack.getD (d - 1) 0) := take_getLast? hd1 hd
    have hok : JmcCallForestParser.processTriple st sig samp d =
        .ok ⟨addChildAt (st.arena ++ [(⟨sig, samp, []⟩ : PNode)])
            (st.stack.getD (d - 1) 0) st.arena.length,
          st.roots,
          CallTreeNodeStack.drop_to st.stack d ++ [st.arena.length]⟩ := by
      unfold JmcCallForestParser.processTriple
      rw [if_neg hd0, htop]
    have hlen3 : (CallTreeNodeStack.drop_to st.stack d).length = d := by
      simp only [CallTreeNodeStack.drop_to, List.length_take]
      exact inf_eq_left.mpr hd
    refine ⟨_, hok, ?_, ?_⟩
    · have hga := goodArena_attach hgood hplt sig samp
      have hlen2 : (addChildAt (st.arena ++ [(⟨sig, samp, []⟩ : PNode)])
          (st.stack.getD (d - 1) 0) st.arena.length).length =
          st.arena.length + 1 := by
        rw [addChildAt_length]
        simp
      have hparold : ∀ m, m < st.arena.length →
          parentOf (addChildAt (st.arena ++ [(⟨sig, samp, []⟩ : PNode)])
            (st.stack.getD (d - 1) 0) st.arena.length) m =
            parentOf st.arena m := by
        intro m hm
        exact parentOf_attach_old hgood hplt sig samp (by omega)
      have hchain_new : chainLen (addChildAt
          (st.arena ++ [(⟨sig, samp, []⟩ : PNode)])
          (st.stack.getD (d - 1) 0) st.arena.length) st.arena.length = d := by
        rw [chainLen_succ_of_parent hga
          (parentOf_attach_new hgood hplt sig samp),
          chainLen_congr_below hgood st.arena.length hparold hplt, hpchain]
        omega
      refine ⟨?_, hga, ?_, ?_, ?_⟩
      · rw [hlen2, hlen]
        simp
      · intro i hi
        simp only [List.length_append, List.length_singleton] at hi
        by_cases hilt : i < ds.length
        · rw [chainLen_congr_below hgood st.arena.length hparold (by omega),
            hchain i hilt, List.getD_append _ _ _ _ hilt]
        · have hie : i = ds.length := by omega
          subst hie
          have hrhs : (ds ++ [d]).getD ds.length 0 = d := by
            rw [List.getD_eq_getElem?_getD,
              List.getElem?_append_right (le_refl _)]
            simp
          rw [hrhs, ← hlen]
          exact hchain_new
      · rw [hroots, rootIndices_append, if_neg hd0, List.append_nil]
      · intro j hj
        simp only [List.length_append, hlen3, List.length_singleton] at hj
        by_cases hjd : j < d
        · have hgd : (CallTreeNodeStack.drop_to st.stack d ++
              [st.arena.length]).getD j 0 = st.stack.getD j 0 := by
            rw [List.getD_append _ _ _ _ (by rw [hlen3]; omega)]
            exact take_getD hjd
          rw [hgd]
          obtain ⟨helt, hechain⟩ := hstack j (by omega)
          constructor
          · rw [hlen2]
            omega
          · rw [chainLen_congr_below hgood st.arena.length hparold helt]
            exact hechain
        · have hje2 : j = d := by omega
          rw [hje2]
          have hgd : (CallTreeNodeStack.drop_to st.stack d ++
              [st.arena.length]).getD d 0 = st.arena.length := by
            rw [List.getD_eq_getElem?_getD,
              List.getElem?_append_right (by rw [hlen3]), hlen3]
            simp
          rw [hgd]
          constructor
          · rw [hlen2]
            omega
          · exact hchain_new
    · simp [hlen3]

theorem parserInv_init : ParserInv initState [] := by
  refine ⟨rfl, ⟨?_, ?_⟩, ?_, rfl, ?_⟩
  · intro q c hc
    rw [childrenAt_eq_nil_of_ge (by simp [initState])] at hc
    simp at hc
  · intro c q1 q2 h1 h2
    rw [childrenAt_eq_nil_of_ge (by simp [initState])] at h1
    simp at h1
  · intro i hi
    simp at hi
  · intro j hj
    simp [initState] at hj

theorem processTriples_inv :
    ∀ (ts : List (List Char × Int × Nat)) (st : BState) (ds : List Nat),
      ParserInv st ds →
      wfFromB st.stack.length (ts.map (fun tr => tr.2.2)) = true →
      ∃ st', JmcCallForestParser.processTriples st ts = .ok st' ∧
        ParserInv st' (ds ++ ts.map (fun tr => tr.2.2)) := by
  intro ts
  induction ts with
  | nil =>
    intro st ds hinv _
    exact ⟨st, rfl, by simpa using hinv⟩
  | cons tr rest ih =>
    intro st ds hinv hwf
    obtain ⟨sig, samp, d⟩ := tr
    simp only [List.map_cons, wfFromB, Bool.and_eq_true, decide_eq_true_eq] at hwf
    obtain ⟨hdle, hwf'⟩ := hwf
    obtain ⟨st1, hok, hinv1, hlen1⟩ := processTriple_step st ds sig samp d hinv hdle
    obtain ⟨st', hok', hinv'⟩ := ih st1 (ds ++ [d]) hinv1 (by rw [hlen1]; exact hwf')
    refine ⟨st', ?_, ?_⟩
    · show JmcCallForestParser.processTriples st ((sig, samp, d) :: rest) = .ok st'
      simp only [JmcCallForestParser.processTriples]
      rw [hok]
      exact hok'
    · have he : (ds ++ [d]) ++ rest.map (fun tr => tr.2.2) =
          ds ++ ((sig, samp, d) :: rest).map (fun tr => tr.2.2) := by
        simp
      exact he ▸ hinv'

/-- C2: for every well-formed decoded line sequence (first line at depth 0
and no depth jumping past the previous depth + 1, which is exactly
`wfFromB 0`), the Forest Builder's single pass — truncate the ancestor stack
to `depth` entries, add the node as a forest root when `depth = 0` and
otherwise as a child of the truncated stack's top, then push it — succeeds,
allocates one node per line (node `i` from line `i`), gives every node an
ancestor-chain length equal to the depth decoded from its source line, and
makes exactly the depth-0 lines the forest's roots, in input order. -/
theorem c2_forest_builder (ts : List (List Char × Int × Nat))
    (hwf : wfFromB 0 (ts.map (fun tr => tr.2.2)) = true) :
    ∃ st, JmcCallForestParser.processTriples initState ts = .ok st ∧
      st.arena.length = ts.length ∧
      (∀ i, i < ts.length →
        chainLen st.arena i = (ts.map (fun tr => tr.2.2)).getD i 0) ∧
      st.roots = rootIndices (ts.map (fun tr => tr.2.2)) := by
  obtain ⟨st, hok, hinv⟩ :=
    processTriples_inv ts initState [] parserInv_init hwf
  refine ⟨st, hok, ?_, ?_, ?_⟩
  · have h := hinv.len
    simpa using h
  · intro i hi
    have h := hinv.chain i (by simpa using hi)
    simpa using h
  · have h := hinv.rootsEq
    simpa using h

/-- C2 witness: on the spec's example input (depths 0, 1, 1) the builder
succeeds, the root node has chain length 0, both children chain length 1,
and the only root is node 0. -/
theorem c2_forest_builder_witness :
    ∃ st, JmcCallForestParser.processTriples initState exampleTriples = .ok st ∧
      st.arena.length = exampleTriples.length ∧
      (∀ i, i < exampleTriples.length →
        chainLen st.arena i =
          (exampleTriples.map (fun tr => tr.2.2)).getD i 0) ∧
      st.roots = rootIndices (exampleTriples.map (fun tr => tr.2.2)) :=
  c2_forest_builder exampleTriples (by decide)
